import Mathlib

/-!
Verification of `sebaubuntu_libs/libandroid/partitions/partitions.py`.

The module locates directories of named Android firmware partitions inside
an extracted dump.  Paths are modelled as lists of components (`PPath`);
`p / q` in Python becomes `p ++ q` and `p.parent` becomes `p.dropLast`.
The filesystem is a predicate `fs : PPath → Bool` answering `is_file`
queries.  Collaborator modules (`partition.py`, `partition_model.py`) are
not part of the analysed sources, so they are modelled from the spec where
marked.
-/

set_option maxRecDepth 4000

/-- A filesystem path, as its ordered list of components. -/
abbrev PPath := List String

/-- One step of the duplicate-removal loop of `get_extended_search_locations`
(`seen`-set guarded append; `acc` is the `unique_locations` list built so far,
which also plays the role of the `seen` set). -/
def uniqueAux {α : Type} [DecidableEq α] (acc : List α) : List α → List α
  | [] => acc
  | x :: xs => if x ∈ acc then uniqueAux acc xs else uniqueAux (acc ++ [x]) xs

/-- The `Remover duplicados manteniendo el orden` loop: keep the first occurrence of
each element, preserving order (the `seen`/`unique_locations` loop). -/
def dedupFirst {α : Type} [DecidableEq α] (l : List α) : List α :=
  uniqueAux [] l

/-- Front-recursive reformulation of the dedup loop, used for proofs:
`dedupScan acc l` is what the loop appends after having emitted `acc`. -/
def dedupScan {α : Type} [DecidableEq α] (acc : List α) : List α → List α
  | [] => []
  | x :: xs => if x ∈ acc then dedupScan acc xs else x :: dedupScan (acc ++ [x]) xs

lemma uniqueAux_eq_append {α : Type} [DecidableEq α] :
    ∀ (l acc : List α), uniqueAux acc l = acc ++ dedupScan acc l := by
  intro l
  induction l with
  | nil => intro acc; simp [uniqueAux, dedupScan]
  | cons x xs ih =>
    intro acc
    by_cases hx : x ∈ acc
    · simp [uniqueAux, dedupScan, hx, ih]
    · simp [uniqueAux, dedupScan, hx, ih (acc ++ [x])]

lemma dedupFirst_eq_scan {α : Type} [DecidableEq α] (l : List α) :
    dedupFirst l = dedupScan [] l := by
  simpa [dedupFirst] using uniqueAux_eq_append l []

lemma mem_dedupScan {α : Type} [DecidableEq α] :
    ∀ (l acc : List α) (x : α), x ∈ dedupScan acc l ↔ x ∈ l ∧ x ∉ acc := by
  intro l
  induction l with
  | nil => intro acc x; simp [dedupScan]
  | cons y ys ih =>
    intro acc x
    by_cases hy : y ∈ acc
    · rw [dedupScan, if_pos hy, ih]
      constructor
      · rintro ⟨hx, hnx⟩; exact ⟨List.mem_cons_of_mem y hx, hnx⟩
      · rintro ⟨hx, hnx⟩
        rcases List.mem_cons.mp hx with rfl | hx
        · exact absurd hy hnx
        · exact ⟨hx, hnx⟩
    · rw [dedupScan, if_neg hy, List.mem_cons, ih]
      constructor
      · rintro (rfl | ⟨hx, hnx⟩)
        · exact ⟨List.mem_cons_self x ys, hy⟩
        · refine ⟨List.mem_cons_of_mem y hx, fun hc => hnx (by simp [hc])⟩
      · rintro ⟨hx, hnx⟩
        by_cases hxy : x = y
        · exact Or.inl hxy
        · rcases List.mem_cons.mp hx with rfl | hx
          · exact Or.inl rfl
          · exact Or.inr ⟨hx, by simp [hnx, hxy]⟩

lemma nodup_dedupScan {α : Type} [DecidableEq α] :
    ∀ (l acc : List α), (dedupScan acc l).Nodup := by
  intro l
  induction l with
  | nil => intro acc; simp [dedupScan]
  | cons y ys ih =>
    intro acc
    by_cases hy : y ∈ acc
    · simpa [dedupScan, hy] using ih acc
    · rw [dedupScan, if_neg hy]
      refine List.nodup_cons.mpr ⟨?_, ih (acc ++ [y])⟩
      intro hmem
      have := (mem_dedupScan ys (acc ++ [y]) y).mp hmem
      simp at this

lemma nodup_dedupFirst {α : Type} [DecidableEq α] (l : List α) :
    (dedupFirst l).Nodup := by
  rw [dedupFirst_eq_scan]; exact nodup_dedupScan l []

lemma mem_dedupFirst {α : Type} [DecidableEq α] (l : List α) (x : α) :
    x ∈ dedupFirst l ↔ x ∈ l := by
  rw [dedupFirst_eq_scan]
  simpa using mem_dedupScan l [] x

/-- Index of the first occurrence of `x` in `l` (length of `l` if absent). -/
def firstIdx {α : Type} [DecidableEq α] (x : α) : List α → Nat
  | [] => 0
  | y :: ys => if y = x then 0 else firstIdx x ys + 1

lemma firstIdx_cons_ne {α : Type} [DecidableEq α] {y a : α} (ys : List α)
    (h : a ≠ y) : firstIdx a (y :: ys) = firstIdx a ys + 1 := by
  simp [firstIdx, Ne.symm h]

lemma pairwise_firstIdx_dedupScan {α : Type} [DecidableEq α] :
    ∀ (l acc : List α),
      (dedupScan acc l).Pairwise (fun a b => firstIdx a l < firstIdx b l) := by
  intro l
  induction l with
  | nil => intro acc; simp [dedupScan]
  | cons y ys ih =>
    intro acc
    by_cases hy : y ∈ acc
    · rw [dedupScan, if_pos hy]
      refine List.Pairwise.imp_of_mem ?_ (ih acc)
      intro a b ha hb hab
      have hna : a ≠ y := fun h => ((mem_dedupScan ys acc a).mp ha).2 (h.symm ▸ hy)
      have hnb : b ≠ y := fun h => ((mem_dedupScan ys acc b).mp hb).2 (h.symm ▸ hy)
      rw [firstIdx_cons_ne ys hna, firstIdx_cons_ne ys hnb]
      omega
    · rw [dedupScan, if_neg hy]
      refine List.pairwise_cons.mpr ⟨?_, ?_⟩
      · intro b hb
        have hmem := (mem_dedupScan ys (acc ++ [y]) b).mp hb
        have hnb : b ≠ y := fun h => hmem.2 (by simp [h])
        rw [firstIdx_cons_ne ys hnb]
        simp [firstIdx]
      · refine List.Pairwise.imp_of_mem ?_ (ih (acc ++ [y]))
        intro a b ha hb hab
        have hna : a ≠ y := fun h => ((mem_dedupScan ys (acc ++ [y]) a).mp ha).2 (by simp [h])
        have hnb : b ≠ y := fun h => ((mem_dedupScan ys (acc ++ [y]) b).mp hb).2 (by simp [h])
        rw [firstIdx_cons_ne ys hna, firstIdx_cons_ne ys hnb]
        omega

lemma dedupScan_append_nodup {α : Type} [DecidableEq α] :
    ∀ (l₁ l₂ acc : List α), l₁.Nodup → (∀ x ∈ l₁, x ∉ acc) →
      dedupScan acc (l₁ ++ l₂) = l₁ ++ dedupScan (acc ++ l₁) l₂ := by
  intro l₁
  induction l₁ with
  | nil => intro l₂ acc _ _; simp
  | cons x xs ih =>
    intro l₂ acc hnd hacc
    have hx : x ∉ acc := hacc x (List.mem_cons_self x xs)
    rw [List.cons_append, dedupScan, if_neg hx]
    have hnd' : xs.Nodup := (List.nodup_cons.mp hnd).2
    have hxs : ∀ y ∈ xs, y ∉ acc ++ [x] := by
      intro y hy hmem
      rcases List.mem_append.mp hmem with h | h
      · exact hacc y (List.mem_cons_of_mem x hy) h
      · have hyx : y = x := by simpa using h
        exact (List.nodup_cons.mp hnd).1 (hyx ▸ hy)
    rw [ih l₂ (acc ++ [x]) hnd' hxs]
    simp

lemma take_length_append {α : Type} (l₁ l₂ : List α) :
    (l₁ ++ l₂).take l₁.length = l₁ := by
  induction l₁ with
  | nil => simp
  | cons x xs ih => simp [ih]

/-! ### The candidate-location generator (`get_extended_search_locations`) -/

/-- The `locations` list built by `get_extended_search_locations` before
duplicate removal: the identity-specific `extended_locations` (with
`standard_locations` as the generic fallback) followed by the
`global_locations`. -/
def rawSearchLocations (base_path : PPath) (partition_name : String) : List PPath :=
  let standard_locations :=
    [base_path ++ [partition_name],
     base_path ++ [partition_name, partition_name]]
  let extended_locations :=
    if partition_name = "system" then
      [base_path ++ ["system"],
       base_path ++ ["system", "system"],
       base_path ++ ["boot", "ramdisk", "system"],
       base_path ++ ["recovery", "ramdisk", "system"],
       base_path ++ ["vendor_boot", "ramdisk", "system"],
       base_path.dropLast ++ ["ramdisk", "system"],
       base_path.dropLast ++ ["vendor_ramdisk", "system"]]
    else if partition_name = "vendor" then
      [base_path ++ ["vendor"],
       base_path ++ ["boot", "ramdisk", "vendor"],
       base_path ++ ["recovery", "ramdisk", "vendor"],
       base_path ++ ["vendor_boot", "ramdisk", "vendor"],
       base_path.dropLast ++ ["ramdisk", "vendor"],
       base_path.dropLast ++ ["vendor_ramdisk", "vendor"]]
    else
      standard_locations
  let global_locations :=
    [base_path ++ [partition_name],
     base_path ++ ["boot", "ramdisk", partition_name],
     base_path ++ ["recovery", "ramdisk", partition_name],
     base_path ++ ["vendor_boot", "ramdisk", partition_name],
     base_path.dropLast ++ [partition_name],
     base_path.dropLast ++ ["ramdisk", partition_name],
     base_path.dropLast ++ ["vendor_ramdisk", partition_name],
     base_path.dropLast.dropLast ++ [partition_name]]
  extended_locations ++ global_locations

/-- Embeds `get_extended_search_locations`: identity-specific and global candidate
directories for a partition name, duplicates removed keeping first
occurrences. -/
def get_extended_search_locations (base_path : PPath) (partition_name : String) :
    List PPath :=
  dedupFirst (rawSearchLocations base_path partition_name)

/-- Embeds `get_extended_build_prop_locations`: the fixed extended catalog of
property-file relative paths. -/
def get_extended_build_prop_locations : List PPath :=
  [["build.prop"],
   ["default.prop"],
   ["prop.default"],
   ["etc", "build.prop"],
   ["system", "build.prop"],
   ["vendor", "build.prop"],
   ["product", "build.prop"],
   ["system_ext", "build.prop"],
   ["odm", "build.prop"]]


/-! ### Collaborator data model (modelled from the spec where external) -/

/-- Modelled from the spec: `partition_model.py` is not among the analysed
sources.  The partition-identity catalog: an opaque enumeration of
identities (SYSTEM, VENDOR, PRODUCT, SYSTEM_EXT, ODM) with a human-readable
name and membership in named groups. -/
inductive PartitionModel : Type
  | SYSTEM
  | VENDOR
  | PRODUCT
  | SYSTEM_EXT
  | ODM
deriving DecidableEq

/-- Modelled from the spec: each identity has a canonical name string. -/
def PartitionModel.name : PartitionModel → String
  | .SYSTEM => "system"
  | .VENDOR => "vendor"
  | .PRODUCT => "product"
  | .SYSTEM_EXT => "system_ext"
  | .ODM => "odm"

/-- Modelled from the spec: the two named groups, Group-A (`SSI`, anchored
by System) and Group-B (`TREBLE`, anchored by Vendor). -/
inductive PartitionGroup : Type
  | SSI
  | TREBLE
deriving DecidableEq

/-- Modelled from the spec: enumeration of all identities in a named
group. -/
def PartitionModel.from_group : PartitionGroup → List PartitionModel
  | .SSI => [.SYSTEM, .SYSTEM_EXT, .PRODUCT]
  | .TREBLE => [.VENDOR, .ODM]

/-- Modelled from the spec: resolution of a partition-name string to an
identity, or unknown (`none`). -/
def PartitionModel.from_name (s : String) : Option PartitionModel :=
  if s = "system" then some .SYSTEM
  else if s = "vendor" then some .VENDOR
  else if s = "product" then some .PRODUCT
  else if s = "system_ext" then some .SYSTEM_EXT
  else if s = "odm" then some .ODM
  else none

/-- Modelled from the spec: `AndroidPartition` from `partition.py` is an
opaque handle pairing an identity with a resolved directory path. -/
structure AndroidPartition : Type where
  model : PartitionModel
  path : PPath
deriving DecidableEq

/-- The combined property-file list used at every search site: the
externally supplied canonical list `BUILD_PROP_LOCATION` (kept abstract,
modelled from the spec as an opaque ordered sequence) followed by the
extended catalog. -/
def allPropLocations (build_prop_location : List PPath) : List PPath :=
  build_prop_location ++ get_extended_build_prop_locations

/-! ### The partition table

Python stores discovered partitions in a `Dict[PartitionModel,
AndroidPartition]`; dicts preserve insertion order, so the table is an
association list with unique keys, new keys appended at the end. -/

/-- The partition table: identity/handle pairs in insertion order. -/
abbrev Table := List (PartitionModel × AndroidPartition)

/-- Key membership, `model in self.partitions`. -/
def tableHas (t : Table) (m : PartitionModel) : Bool :=
  t.any (fun e => e.1 == m)

/-- Keyed access, `self.partitions[model]` as an optional result. -/
def tableGet (t : Table) (m : PartitionModel) : Option AndroidPartition :=
  (t.find? (fun e => e.1 == m)).map (·.2)

/-- Assignment `self.partitions[model] = v`: replace in place if the key exists,
append otherwise (dict insertion-order semantics). -/
def tableSet (t : Table) (m : PartitionModel) (v : AndroidPartition) : Table :=
  if tableHas t m then t.map (fun e => if e.1 == m then (m, v) else e)
  else t ++ [(m, v)]

/-- Access `self.partitions[model]` where the caller knows the key is present
(Python raises `KeyError` otherwise; every call site in `__init__` runs
after the mandatory-partition asserts, so the key is always present
there). -/
def tableGetD (t : Table) (m : PartitionModel) : AndroidPartition :=
  (tableGet t m).getD ⟨m, []⟩

/-! ### The probing loops -/

/-- The inner loop of every search: probe `location / build_prop_location`
for each entry of the combined property-file list in order; on the first
`is_file` hit, stop (`break`).  Returns the sequence of probed
(directory, file) pairs and whether a hit occurred. -/
def probeFilesTrace (fs : PPath → Bool) (loc : PPath) :
    List PPath → List (PPath × PPath) × Bool
  | [] => ([], false)
  | f :: rest =>
    if fs (loc ++ f) then ([(loc, f)], true)
    else
      let r := probeFilesTrace fs loc rest
      ((loc, f) :: r.1, r.2)

/-- The outer loop of the System and Vendor searches in `__init__`: iterate
candidate directories; a `found` flag set on a hit breaks out before the
next directory is probed.  Returns the probe trace and the first matching
directory, if any. -/
def searchLocsTrace (fs : PPath → Bool) (files : List PPath) :
    List PPath → List (PPath × PPath) × Option PPath
  | [] => ([], none)
  | loc :: rest =>
    let p := probeFilesTrace fs loc files
    if p.2 then (p.1, some loc)
    else
      let r := searchLocsTrace fs files rest
      (p.1 ++ r.1, r.2)

/-- The loop of `_search_for_partition_extended`: iterate candidate
directories; before probing each one, `break` if the identity is already
in the table; on a file hit, record `AndroidPartition(model, location)`
under the identity and break the inner loop. -/
def searchExtLoop (fs : PPath → Bool) (model : PartitionModel)
    (files : List PPath) : List PPath → Table → List (PPath × PPath) × Table
  | [], t => ([], t)
  | loc :: rest, t =>
    if tableHas t model then ([], t)
    else
      let p := probeFilesTrace fs loc files
      let t1 := if p.2 then tableSet t model ⟨model, loc⟩ else t
      let r := searchExtLoop fs model files rest t1
      (p.1 ++ r.1, r.2)

/-- The `possible_locations` list of `_search_for_partition_extended`:
the generator output for the identity name, then the three appended
standard locations (under System, under Vendor, under the dump root). -/
def extCandidates (dump_path : PPath) (t : Table) (m : PartitionModel) :
    List PPath :=
  get_extended_search_locations dump_path m.name ++
    [(tableGetD t PartitionModel.SYSTEM).path ++ [m.name],
     (tableGetD t PartitionModel.VENDOR).path ++ [m.name],
     dump_path ++ [m.name]]

/-- Embeds `Partitions._search_for_partition_extended`: extended best-effort
search for one identity; returns the probe trace and the updated table. -/
def search_for_partition_extended (build_prop_location : List PPath)
    (fs : PPath → Bool) (dump_path : PPath) (t : Table) (m : PartitionModel) :
    List (PPath × PPath) × Table :=
  searchExtLoop fs m (allPropLocations build_prop_location)
    (extCandidates dump_path t m) t

/-! ### Construction (`Partitions.__init__`) -/

/-- The resulting locator state: the dump root and the partition table. -/
structure Partitions : Type where
  dump_path : PPath
  partitions : Table
deriving DecidableEq

/-- The two fatal construction failures (`assert` in `__init__`); the
payload carries the list of searched candidate directories, as the
assertion message does. -/
inductive InitError : Type
  | systemNotFound (searched : List PPath)
  | vendorNotFound (searched : List PPath)
deriving DecidableEq

/-- Embeds `Partitions.__init__`: locate System (mandatory), then Vendor
(mandatory, candidate list seeded with `<system>/vendor` at the front),
then every remaining Group-A and Group-B identity via the extended
best-effort search. -/
def Partitions.init (build_prop_location : List PPath) (fs : PPath → Bool)
    (dump_path : PPath) : Except InitError Partitions :=
  let system_search_locations := get_extended_search_locations dump_path "system"
  let all_prop_locations := allPropLocations build_prop_location
  match (searchLocsTrace fs all_prop_locations system_search_locations).2 with
  | none => .error (.systemNotFound system_search_locations)
  | some sysLoc =>
    let t0 : Table := [(PartitionModel.SYSTEM, ⟨PartitionModel.SYSTEM, sysLoc⟩)]
    let vendor_search_locations :=
      (sysLoc ++ ["vendor"]) :: get_extended_search_locations dump_path "vendor"
    match (searchLocsTrace fs all_prop_locations vendor_search_locations).2 with
    | none => .error (.vendorNotFound vendor_search_locations)
    | some venLoc =>
      let t1 := t0 ++ [(PartitionModel.VENDOR, ⟨PartitionModel.VENDOR, venLoc⟩)]
      let t2 := ((PartitionModel.from_group .SSI).filter
          (fun m => !(m == PartitionModel.SYSTEM))).foldl
          (fun t m => (search_for_partition_extended build_prop_location fs dump_path t m).2) t1
      let t3 := ((PartitionModel.from_group .TREBLE).filter
          (fun m => !(m == PartitionModel.VENDOR))).foldl
          (fun t m => (search_for_partition_extended build_prop_location fs dump_path t m).2) t2
      .ok ⟨dump_path, t3⟩

/-! ### Accessors -/

/-- Embeds `Partitions.get_partition`: absent result when the model is unset
(`None`) or not in the table; never fails. -/
def Partitions.get_partition (p : Partitions) :
    Option PartitionModel → Option AndroidPartition
  | none => none
  | some m => tableGet p.partitions m

/-- Embeds `Partitions.get_partition_by_name`: resolve the name through the
catalog, then delegate. -/
def Partitions.get_partition_by_name (p : Partitions) (name : String) :
    Option AndroidPartition :=
  p.get_partition (PartitionModel.from_name name)

/-- Embeds `Partitions.get_all_partitions`: the table values in insertion order. -/
def Partitions.get_all_partitions (p : Partitions) : List AndroidPartition :=
  p.partitions.map (·.2)

/-- A filesystem with exactly two property files, `d/system/build.prop` and
`d/vendor/build.prop`. -/
def fsTwo (p : PPath) : Bool :=
  decide (p = ["d", "system", "build.prop"]) || decide (p = ["d", "vendor", "build.prop"])


/-! ### List helpers for the search characterizations -/

lemma find?_append_cases {α : Type} (q : α → Bool) :
    ∀ (l₁ l₂ : List α),
      (l₁ ++ l₂).find? q = match l₁.find? q with
        | some x => some x
        | none => l₂.find? q := by
  intro l₁ l₂
  induction l₁ with
  | nil => simp
  | cons x xs ih =>
    by_cases hx : q x
    · simp [List.find?_cons, hx]
    · simp only [List.cons_append, List.find?_cons, hx]
      simpa [hx] using ih

lemma takeWhile_append_of_find?_some {α : Type} (q : α → Bool) :
    ∀ (l₁ l₂ : List α) (x₀ : α), l₁.find? q = some x₀ →
      (l₁ ++ l₂).takeWhile (fun x => !q x) = l₁.takeWhile (fun x => !q x) := by
  intro l₁
  induction l₁ with
  | nil => intro l₂ x₀ h; simp at h
  | cons x xs ih =>
    intro l₂ x₀ h
    by_cases hx : q x
    · simp [List.takeWhile_cons, hx]
    · rw [List.find?_cons_of_neg xs hx] at h
      simp only [List.cons_append, List.takeWhile_cons, hx]
      simp only [Bool.not_false, if_pos]
      rw [ih l₂ x₀ h]

lemma takeWhile_append_of_find?_none {α : Type} (q : α → Bool) :
    ∀ (l₁ l₂ : List α), l₁.find? q = none →
      (l₁ ++ l₂).takeWhile (fun x => !q x) =
        l₁ ++ l₂.takeWhile (fun x => !q x) := by
  intro l₁
  induction l₁ with
  | nil => intro l₂ _; simp
  | cons x xs ih =>
    intro l₂ h
    by_cases hx : q x
    · rw [List.find?_cons_of_pos xs hx] at h; exact absurd h (by simp)
    · rw [List.find?_cons_of_neg xs hx] at h
      simp only [List.cons_append, List.takeWhile_cons, hx, Bool.not_false, if_pos]
      rw [ih l₂ h]

lemma find?_map_pair {α β : Type} (g : α → β) (q : β → Bool) :
    ∀ l : List α, (l.map g).find? q = (l.find? (fun x => q (g x))).map g := by
  intro l
  induction l with
  | nil => simp
  | cons x xs ih =>
    by_cases hx : q (g x)
    · simp [List.find?_cons, hx]
    · simp only [List.map_cons, List.find?_cons, hx]
      simpa [hx] using ih

lemma takeWhile_map_pair {α β : Type} (g : α → β) (q : β → Bool) :
    ∀ l : List α, (l.map g).takeWhile q = (l.takeWhile (fun x => q (g x))).map g := by
  intro l
  induction l with
  | nil => simp
  | cons x xs ih =>
    by_cases hx : q (g x)
    · simp [List.takeWhile_cons, hx, ih]
    · simp [List.takeWhile_cons, hx]

lemma any_false_of {α : Type} (p : α → Bool) :
    ∀ l : List α, (∀ x ∈ l, p x = false) → l.any p = false := by
  intro l h
  induction l with
  | nil => simp
  | cons x xs ih =>
    simp only [List.any_cons, Bool.or_eq_false_iff]
    exact ⟨h x (List.mem_cons_self x xs), ih (fun y hy => h y (List.mem_cons_of_mem x hy))⟩

/-! ### Characterizations of the inner probe loop -/

lemma probeFilesTrace_found (fs : PPath → Bool) (loc : PPath) :
    ∀ (files : List PPath) (f₀ : PPath),
      files.find? (fun f => fs (loc ++ f)) = some f₀ →
      probeFilesTrace fs loc files =
        ((files.takeWhile (fun f => !fs (loc ++ f))).map (fun f => (loc, f))
          ++ [(loc, f₀)], true) := by
  intro files
  induction files with
  | nil => intro f₀ h; simp at h
  | cons f rest ih =>
    intro f₀ h
    by_cases hf : fs (loc ++ f)
    · rw [@List.find?_cons_of_pos _ (fun g => fs (loc ++ g)) f rest hf] at h
      rw [Option.some.injEq] at h
      subst h
      simp [probeFilesTrace, hf, List.takeWhile_cons]
    · rw [@List.find?_cons_of_neg _ (fun g => fs (loc ++ g)) f rest hf] at h
      rw [probeFilesTrace, if_neg hf]
      rw [ih f₀ h]
      simp [List.takeWhile_cons, hf]

lemma probeFilesTrace_none (fs : PPath → Bool) (loc : PPath) :
    ∀ files : List PPath,
      files.find? (fun f => fs (loc ++ f)) = none →
      probeFilesTrace fs loc files = (files.map (fun f => (loc, f)), false) := by
  intro files
  induction files with
  | nil => intro h; simp [probeFilesTrace]
  | cons f rest ih =>
    intro h
    by_cases hf : fs (loc ++ f)
    · rw [@List.find?_cons_of_pos _ (fun g => fs (loc ++ g)) f rest hf] at h; exact absurd h (by simp)
    · rw [@List.find?_cons_of_neg _ (fun g => fs (loc ++ g)) f rest hf] at h
      rw [probeFilesTrace, if_neg hf, ih h]
      simp

lemma probeFilesTrace_res (fs : PPath → Bool) (loc : PPath) :
    ∀ files : List PPath,
      (probeFilesTrace fs loc files).2 = files.any (fun f => fs (loc ++ f)) := by
  intro files
  induction files with
  | nil => simp [probeFilesTrace]
  | cons f rest ih =>
    by_cases hf : fs (loc ++ f)
    · simp [probeFilesTrace, hf]
    · simp [probeFilesTrace, hf, ih]

lemma probeFilesTrace_mem (fs : PPath → Bool) (loc : PPath) :
    ∀ (files : List PPath) (pr : PPath × PPath),
      pr ∈ (probeFilesTrace fs loc files).1 → pr.1 = loc ∧ pr.2 ∈ files := by
  intro files
  induction files with
  | nil => intro pr h; simp [probeFilesTrace] at h
  | cons f rest ih =>
    intro pr h
    by_cases hf : fs (loc ++ f)
    · rw [probeFilesTrace, if_pos hf] at h
      rcases (by simpa using h : pr = (loc, f)) with rfl
      exact ⟨rfl, by simp⟩
    · rw [probeFilesTrace, if_neg hf] at h
      rcases List.mem_cons.mp h with rfl | h
      · exact ⟨rfl, by simp⟩
      · rcases ih pr h with ⟨h1, h2⟩
        exact ⟨h1, List.mem_cons_of_mem f h2⟩

lemma probeFilesTrace_snd_sublist (fs : PPath → Bool) (loc : PPath) :
    ∀ files : List PPath,
      ((probeFilesTrace fs loc files).1.map (·.2)).Sublist files := by
  intro files
  induction files with
  | nil => simp [probeFilesTrace]
  | cons f rest ih =>
    by_cases hf : fs (loc ++ f)
    · rw [probeFilesTrace, if_pos hf]
      simp
    · rw [probeFilesTrace, if_neg hf]
      exact List.Sublist.cons₂ f ih

lemma probeFilesTrace_nodup (fs : PPath → Bool) (loc : PPath)
    (files : List PPath) (h : files.Nodup) :
    (probeFilesTrace fs loc files).1.Nodup := by
  have hsnd : ((probeFilesTrace fs loc files).1.map (·.2)).Nodup :=
    (probeFilesTrace_snd_sublist fs loc files).nodup h
  exact hsnd.of_map

/-! ### The probe sequence of a whole search -/

/-- All (directory, file) pairs of a search, in probing order: directories
outermost, the combined property-file list innermost. -/
def allPairs (files : List PPath) : List PPath → List (PPath × PPath)
  | [] => []
  | loc :: rest => files.map (fun f => (loc, f)) ++ allPairs files rest

lemma find?_block (fs : PPath → Bool) (loc : PPath) :
    ∀ files : List PPath,
      (files.map (fun f => (loc, f))).find? (fun q => fs (q.1 ++ q.2)) =
        (files.find? (fun f => fs (loc ++ f))).map (fun f => (loc, f)) := by
  intro files
  induction files with
  | nil => simp
  | cons f rest ih =>
    by_cases hf : fs (loc ++ f)
    · rw [List.map_cons,
        @List.find?_cons_of_pos _ (fun q => fs (q.1 ++ q.2)) (loc, f) _ hf,
        @List.find?_cons_of_pos _ (fun g => fs (loc ++ g)) f rest hf]
      simp
    · rw [List.map_cons,
        @List.find?_cons_of_neg _ (fun q => fs (q.1 ++ q.2)) (loc, f) _ hf,
        @List.find?_cons_of_neg _ (fun g => fs (loc ++ g)) f rest hf, ih]

lemma takeWhile_block (fs : PPath → Bool) (loc : PPath) :
    ∀ files : List PPath,
      (files.map (fun f => (loc, f))).takeWhile (fun q => !fs (q.1 ++ q.2)) =
        (files.takeWhile (fun f => !fs (loc ++ f))).map (fun f => (loc, f)) := by
  intro files
  induction files with
  | nil => simp
  | cons f rest ih =>
    by_cases hf : fs (loc ++ f)
    · simp [List.takeWhile_cons, hf]
    · simp [List.takeWhile_cons, hf, ih]

/-! ### Characterizations of the System/Vendor outer loop -/

lemma searchLocsTrace_none (fs : PPath → Bool) (files : List PPath) :
    ∀ locs : List PPath,
      (∀ loc ∈ locs, ∀ f ∈ files, fs (loc ++ f) = false) →
      searchLocsTrace fs files locs = (allPairs files locs, none) := by
  intro locs
  induction locs with
  | nil => intro _; simp [searchLocsTrace, allPairs]
  | cons loc rest ih =>
    intro h
    have hany : files.any (fun f => fs (loc ++ f)) = false :=
      any_false_of _ files (fun f hf => h loc (List.mem_cons_self loc rest) f hf)
    have hfind : files.find? (fun f => fs (loc ++ f)) = none :=
      List.find?_eq_none.mpr (fun f hf => by simp [h loc (List.mem_cons_self loc rest) f hf])
    have hres : (probeFilesTrace fs loc files).2 = false := by
      rw [probeFilesTrace_res]; exact hany
    rw [searchLocsTrace]
    rw [probeFilesTrace_none fs loc files hfind]
    simp only [if_neg (by simp : ¬(((List.map (fun f => (loc, f)) files, false) :
      List (PPath × PPath) × Bool)).2 = true)]
    rw [ih (fun l hl f hf => h l (List.mem_cons_of_mem loc hl) f hf)]
    simp [allPairs]

lemma searchLocsTrace_found_head (fs : PPath → Bool) (files : List PPath)
    (loc : PPath) (rest : List PPath)
    (h : files.any (fun f => fs (loc ++ f)) = true) :
    (searchLocsTrace fs files (loc :: rest)).2 = some loc := by
  have hres : (probeFilesTrace fs loc files).2 = true := by
    rw [probeFilesTrace_res]; exact h
  rw [searchLocsTrace, if_pos hres]

lemma searchLocsTrace_skip_head (fs : PPath → Bool) (files : List PPath)
    (loc : PPath) (rest : List PPath)
    (h : files.any (fun f => fs (loc ++ f)) = false) :
    (searchLocsTrace fs files (loc :: rest)).2 =
      (searchLocsTrace fs files rest).2 := by
  have hres : (probeFilesTrace fs loc files).2 = false := by
    rw [probeFilesTrace_res]; exact h
  rw [searchLocsTrace, if_neg (by simp [hres])]

lemma searchLocsTrace_fst_mem (fs : PPath → Bool) (files : List PPath) :
    ∀ (locs : List PPath) (pr : PPath × PPath),
      pr ∈ (searchLocsTrace fs files locs).1 → pr.1 ∈ locs := by
  intro locs
  induction locs with
  | nil => intro pr h; simp [searchLocsTrace] at h
  | cons loc rest ih =>
    intro pr h
    rw [searchLocsTrace] at h
    by_cases hres : (probeFilesTrace fs loc files).2
    · rw [if_pos hres] at h
      exact (probeFilesTrace_mem fs loc files pr h).1 ▸ List.mem_cons_self loc rest
    · rw [if_neg hres] at h
      rcases List.mem_append.mp h with h | h
      · exact (probeFilesTrace_mem fs loc files pr h).1 ▸ List.mem_cons_self loc rest
      · exact List.mem_cons_of_mem loc (ih pr h)

lemma searchLocsTrace_nodup (fs : PPath → Bool) (files : List PPath)
    (hfiles : files.Nodup) :
    ∀ locs : List PPath, locs.Nodup →
      (searchLocsTrace fs files locs).1.Nodup := by
  intro locs
  induction locs with
  | nil => intro _; simp [searchLocsTrace]
  | cons loc rest ih =>
    intro hnd
    have hloc : loc ∉ rest := (List.nodup_cons.mp hnd).1
    have hrest : rest.Nodup := (List.nodup_cons.mp hnd).2
    rw [searchLocsTrace]
    by_cases hres : (probeFilesTrace fs loc files).2
    · rw [if_pos hres]
      exact probeFilesTrace_nodup fs loc files hfiles
    · rw [if_neg hres]
      refine List.Nodup.append (probeFilesTrace_nodup fs loc files hfiles)
        (ih hrest) ?_
      intro pr hpr1 hpr2
      have h1 : pr.1 = loc := (probeFilesTrace_mem fs loc files pr hpr1).1
      have h2 : pr.1 ∈ rest := searchLocsTrace_fst_mem fs files rest pr hpr2
      exact hloc (h1 ▸ h2)

/-! ### Table lemmas -/

lemma tableHas_append (t e : Table) (m : PartitionModel) :
    tableHas (t ++ e) m = (tableHas t m || tableHas e m) := by
  simp [tableHas, List.any_append]

lemma tableSet_absent (t : Table) (m : PartitionModel) (v : AndroidPartition)
    (h : tableHas t m = false) : tableSet t m v = t ++ [(m, v)] := by
  rw [tableSet, if_neg (by simp [h])]

lemma tableGet_append_left (t e : Table) (m : PartitionModel)
    (v : AndroidPartition) (h : tableGet t m = some v) :
    tableGet (t ++ e) m = some v := by
  rw [tableGet] at h ⊢
  rw [find?_append_cases]
  rcases hf : t.find? (fun x => x.1 == m) with _ | p
  · rw [hf] at h; simp at h
  · rw [hf] at h; rw [hf]; exact h

lemma tableGet_append_of_keys (t e : Table) (m : PartitionModel)
    (h : tableGet t m = none) (hk : ∀ x ∈ e, x.1 ≠ m) :
    tableGet (t ++ e) m = none := by
  rw [tableGet] at h ⊢
  rw [find?_append_cases]
  rcases hf : t.find? (fun x => x.1 == m) with _ | p
  · have : e.find? (fun x => x.1 == m) = none := by
      refine List.find?_eq_none.mpr ?_
      intro x hx
      simp [hk x hx]
    rw [hf, this]
    rfl
  · rw [hf] at h; simp at h

lemma tableGet_of_tableHas_false (t : Table) (m : PartitionModel)
    (h : tableHas t m = false) : tableGet t m = none := by
  rw [tableGet]
  have : t.find? (fun x => x.1 == m) = none := by
    refine List.find?_eq_none.mpr ?_
    intro x hx hq
    have : tableHas t m = true := by
      rw [tableHas, List.any_eq_true]
      exact ⟨x, hx, hq⟩
    simp [this] at h
  rw [this]
  rfl

/-! ### Characterizations of the extended search loop -/

lemma searchExtLoop_guard (fs : PPath → Bool) (m : PartitionModel)
    (files : List PPath) (locs : List PPath) (t : Table)
    (h : tableHas t m = true) :
    searchExtLoop fs m files locs t = ([], t) := by
  cases locs with
  | nil => rfl
  | cons loc rest => rw [searchExtLoop, if_pos h]

lemma searchExtLoop_append (fs : PPath → Bool) (m : PartitionModel)
    (files : List PPath) :
    ∀ (locs : List PPath) (t : Table),
      ∃ ext, (searchExtLoop fs m files locs t).2 = t ++ ext ∧
        ∀ e ∈ ext, e.1 = m := by
  intro locs
  induction locs with
  | nil => intro t; exact ⟨[], by simp [searchExtLoop], by simp⟩
  | cons loc rest ih =>
    intro t
    by_cases hg : tableHas t m
    · exact ⟨[], by simp [searchExtLoop, hg], by simp⟩
    · by_cases hres : (probeFilesTrace fs loc files).2
      · rcases ih (tableSet t m ⟨m, loc⟩) with ⟨ext, hext, hkeys⟩
        refine ⟨(m, ⟨m, loc⟩) :: ext, ?_, ?_⟩
        · simp only [searchExtLoop, hg, if_false, Bool.false_eq_true, hres, if_true]
          rw [hext, tableSet_absent t m _ (by simpa using hg)]
          simp
        · intro e he
          rcases List.mem_cons.mp he with rfl | he
          · rfl
          · exact hkeys e he
      · rcases ih t with ⟨ext, hext, hkeys⟩
        refine ⟨ext, ?_, hkeys⟩
        simp only [searchExtLoop, hg, if_false, Bool.false_eq_true, hres, if_true]
        exact hext

lemma searchExtLoop_nomatch (fs : PPath → Bool) (m : PartitionModel)
    (files : List PPath) :
    ∀ (locs : List PPath) (t : Table),
      (∀ loc ∈ locs, ∀ f ∈ files, fs (loc ++ f) = false) →
      (searchExtLoop fs m files locs t).2 = t := by
  intro locs
  induction locs with
  | nil => intro t _; rfl
  | cons loc rest ih =>
    intro t h
    by_cases hg : tableHas t m
    · rw [searchExtLoop_guard fs m files _ t hg]
    · have hany : files.any (fun f => fs (loc ++ f)) = false :=
        any_false_of _ files (fun f hf => h loc (List.mem_cons_self loc rest) f hf)
      have hres : (probeFilesTrace fs loc files).2 = false := by
        rw [probeFilesTrace_res]; exact hany
      simp only [searchExtLoop, hg, if_false, hres, Bool.false_eq_true, if_true]
      exact ih t (fun l hl f hf => h l (List.mem_cons_of_mem loc hl) f hf)

lemma searchExtLoop_found (fs : PPath → Bool) (m : PartitionModel)
    (files : List PPath) :
    ∀ (locs : List PPath) (t : Table) (pr : PPath × PPath),
      tableHas t m = false →
      (allPairs files locs).find? (fun q => fs (q.1 ++ q.2)) = some pr →
      searchExtLoop fs m files locs t =
        ((allPairs files locs).takeWhile (fun q => !fs (q.1 ++ q.2)) ++ [pr],
          t ++ [(m, ⟨m, pr.1⟩)]) := by
  intro locs
  induction locs with
  | nil => intro t pr _ hfind; simp [allPairs] at hfind
  | cons loc rest ih =>
    intro t pr hg hfind
    rw [allPairs] at hfind ⊢
    rcases hf : files.find? (fun f => fs (loc ++ f)) with _ | f₀
    · -- no hit in this directory: its whole block is probed, then recurse
      have hblock : (files.map (fun f => (loc, f))).find?
          (fun q => fs (q.1 ++ q.2)) = none := by
        rw [find?_block, hf]; rfl
      have hrest : (allPairs files rest).find? (fun q => fs (q.1 ++ q.2)) = some pr := by
        rw [find?_append_cases] at hfind
        rw [hblock] at hfind
        exact hfind
      have hres : (probeFilesTrace fs loc files).2 = false := by
        rw [probeFilesTrace_res]
        refine any_false_of _ files ?_
        intro f hmem
        have := List.find?_eq_none.mp hf f hmem
        simpa using this
      simp only [searchExtLoop, hg, if_false, Bool.false_eq_true, if_true]
      simp only [if_neg (by simp [hres] : ¬(probeFilesTrace fs loc files).2 = true)]
      rw [probeFilesTrace_none fs loc files hf]
      rw [ih t pr hg hrest]
      rw [takeWhile_append_of_find?_none _ _ _ hblock]
      simp [List.append_assoc]
    · -- first hit inside this directory
      have hblock : (files.map (fun f => (loc, f))).find?
          (fun q => fs (q.1 ++ q.2)) = some (loc, f₀) := by
        rw [find?_block, hf]; rfl
      have hpr : pr = (loc, f₀) := by
        rw [find?_append_cases] at hfind
        rw [hblock] at hfind
        simpa using hfind.symm
      subst hpr
      have hres : (probeFilesTrace fs loc files).2 = true := by
        rw [probeFilesTrace_res, List.any_eq_true]
        exact ⟨f₀, List.mem_of_find?_eq_some hf, by simpa using List.find?_some hf⟩
      simp only [searchExtLoop, hg, if_false, Bool.false_eq_true, if_true]
      simp only [if_pos hres]
      rw [probeFilesTrace_found fs loc files f₀ hf]
      rw [tableSet_absent t m _ hg]
      have hg2 : tableHas (t ++ [(m, (⟨m, loc⟩ : AndroidPartition))]) m = true := by
        rw [tableHas_append]
        simp [tableHas]
      rw [searchExtLoop_guard fs m files rest _ hg2]
      rw [takeWhile_append_of_find?_some _ _ _ _ hblock]
      rw [takeWhile_block]
      simp

/-! ### Structure of a successful construction -/

lemma foldl_search_append (bpl : List PPath) (fs : PPath → Bool) (R : PPath) :
    ∀ (models : List PartitionModel) (t : Table),
      ∃ ext,
        models.foldl
          (fun t m => (search_for_partition_extended bpl fs R t m).2) t
          = t ++ ext ∧ ∀ e ∈ ext, e.1 ∈ models := by
  intro models
  induction models with
  | nil => intro t; exact ⟨[], by simp, by simp⟩
  | cons m ms ih =>
    intro t
    rcases searchExtLoop_append fs m (allPropLocations bpl)
        (extCandidates R t m) t with ⟨e₁, he₁, hk₁⟩
    rcases ih ((search_for_partition_extended bpl fs R t m).2) with ⟨e₂, he₂, hk₂⟩
    refine ⟨e₁ ++ e₂, ?_, ?_⟩
    · rw [List.foldl_cons, he₂, search_for_partition_extended, he₁,
        List.append_assoc]
    · intro e he
      rcases List.mem_append.mp he with he | he
      · exact (hk₁ e he) ▸ List.mem_cons_self m ms
      · exact List.mem_cons_of_mem m (hk₂ e he)

/-- The two non-mandatory search phases of `__init__`, as model lists. -/
lemma ssi_filtered :
    (PartitionModel.from_group .SSI).filter
      (fun m => !(m == PartitionModel.SYSTEM)) =
      [PartitionModel.SYSTEM_EXT, PartitionModel.PRODUCT] := by
  rfl

lemma treble_filtered :
    (PartitionModel.from_group .TREBLE).filter
      (fun m => !(m == PartitionModel.VENDOR)) = [PartitionModel.ODM] := by
  rfl

lemma init_ok_elim (bpl : List PPath) (fs : PPath → Bool) (R : PPath)
    (P : Partitions) (h : Partitions.init bpl fs R = .ok P) :
    ∃ sysLoc venLoc ext,
      (searchLocsTrace fs (allPropLocations bpl)
        (get_extended_search_locations R "system")).2 = some sysLoc ∧
      (searchLocsTrace fs (allPropLocations bpl)
        ((sysLoc ++ ["vendor"]) :: get_extended_search_locations R "vendor")).2
        = some venLoc ∧
      P = ⟨R,
        [(PartitionModel.SYSTEM, ⟨PartitionModel.SYSTEM, sysLoc⟩),
         (PartitionModel.VENDOR, ⟨PartitionModel.VENDOR, venLoc⟩)] ++ ext⟩ ∧
      ∀ e ∈ ext, e.1 = PartitionModel.SYSTEM_EXT ∨
        e.1 = PartitionModel.PRODUCT ∨ e.1 = PartitionModel.ODM := by
  rw [Partitions.init] at h
  rcases hsys : (searchLocsTrace fs (allPropLocations bpl)
      (get_extended_search_locations R "system")).2 with _ | sysLoc
  · rw [hsys] at h; exact absurd h (by simp)
  · rw [hsys] at h
    simp only [] at h
    rcases hven : (searchLocsTrace fs (allPropLocations bpl)
        ((sysLoc ++ ["vendor"]) :: get_extended_search_locations R "vendor")).2
        with _ | venLoc
    · rw [hven] at h; exact absurd h (by simp)
    · rw [hven] at h
      simp only [] at h
      rcases foldl_search_append bpl fs R
          ((PartitionModel.from_group .SSI).filter
            (fun m => !(m == PartitionModel.SYSTEM)))
          [(PartitionModel.SYSTEM, ⟨PartitionModel.SYSTEM, sysLoc⟩),
           (PartitionModel.VENDOR, ⟨PartitionModel.VENDOR, venLoc⟩)]
          with ⟨ea, hea, hka⟩
      rcases foldl_search_append bpl fs R
          ((PartitionModel.from_group .TREBLE).filter
            (fun m => !(m == PartitionModel.VENDOR)))
          ([(PartitionModel.SYSTEM, ⟨PartitionModel.SYSTEM, sysLoc⟩),
            (PartitionModel.VENDOR, ⟨PartitionModel.VENDOR, venLoc⟩)] ++ ea)
          with ⟨eb, heb, hkb⟩
      simp only [List.singleton_append] at h
      rw [hea, heb] at h
      refine ⟨sysLoc, venLoc, ea ++ eb, rfl, hven, ?_, ?_⟩
      · rw [Except.ok.injEq] at h
        rw [← h, List.append_assoc]
      · intro e he
        rcases List.mem_append.mp he with he | he
        · have := hka e he
          rw [ssi_filtered] at this
          rcases List.mem_cons.mp this with h1 | h1
          · exact Or.inl h1
          · exact Or.inr (Or.inl (by simpa using h1))
        · have := hkb e he
          rw [treble_filtered] at this
          exact Or.inr (Or.inr (by simpa using this))

/-! ## Claims -/

/-- Claim C9: for any name string that the external catalog does not
resolve to a known identity, `get_partition_by_name` returns an absent
result (and, being a total function, never raises). -/
theorem C9_unknown_name_absent (p : Partitions) (name : String)
    (h : PartitionModel.from_name name = none) :
    p.get_partition_by_name name = none := by
  rw [Partitions.get_partition_by_name, h]
  rfl

theorem C9_unknown_name_absent_witness :
    PartitionModel.from_name "unknown_partition" = none ∧
      Partitions.get_partition_by_name ⟨[], []⟩ "unknown_partition" = none :=
  ⟨by decide,
   C9_unknown_name_absent ⟨[], []⟩ "unknown_partition" (by decide)⟩

/-- Claim C10: running the generic extended search for an identity already
present in the table probes nothing and leaves the table entirely
unchanged. -/
theorem C10_search_present_identity_noop (bpl : List PPath)
    (fs : PPath → Bool) (R : PPath) (t : Table) (m : PartitionModel)
    (h : tableHas t m = true) :
    search_for_partition_extended bpl fs R t m = ([], t) := by
  rw [search_for_partition_extended]
  exact searchExtLoop_guard fs m _ _ t h

theorem C10_search_present_identity_noop_witness :
    tableHas
        [(PartitionModel.PRODUCT,
          (⟨PartitionModel.PRODUCT, ["d", "product"]⟩ : AndroidPartition))]
        PartitionModel.PRODUCT = true ∧
      search_for_partition_extended [] (fun _ => false) ["d"]
        [(PartitionModel.PRODUCT, ⟨PartitionModel.PRODUCT, ["d", "product"]⟩)]
        PartitionModel.PRODUCT =
        ([], [(PartitionModel.PRODUCT,
          ⟨PartitionModel.PRODUCT, ["d", "product"]⟩)]) :=
  ⟨by decide,
   C10_search_present_identity_noop [] (fun _ => false) ["d"]
     [(PartitionModel.PRODUCT, ⟨PartitionModel.PRODUCT, ["d", "product"]⟩)]
     PartitionModel.PRODUCT (by decide)⟩

/-- Claim C6: for every root and non-empty name, the candidate generator
returns a duplicate-free sequence; each emitted path is one of the raw
generated paths and vice versa, and the output is ordered by the index of
each path's first occurrence in the raw generated sequence. -/
theorem C6_generator_dedup_first_occurrence (R : PPath) (N : String)
    (h : N ≠ "") :
    (get_extended_search_locations R N).Nodup ∧
    (∀ x, x ∈ get_extended_search_locations R N ↔ x ∈ rawSearchLocations R N) ∧
    (get_extended_search_locations R N).Pairwise
      (fun a b =>
        firstIdx a (rawSearchLocations R N) < firstIdx b (rawSearchLocations R N)) := by
  refine ⟨nodup_dedupFirst _, fun x => mem_dedupFirst _ x, ?_⟩
  rw [get_extended_search_locations, dedupFirst_eq_scan]
  exact pairwise_firstIdx_dedupScan (rawSearchLocations R N) []

theorem C6_generator_dedup_first_occurrence_witness :
    ("product" : String) ≠ "" ∧
    ((get_extended_search_locations ["d"] "product").Nodup ∧
    (∀ x, x ∈ get_extended_search_locations ["d"] "product" ↔
      x ∈ rawSearchLocations ["d"] "product") ∧
    (get_extended_search_locations ["d"] "product").Pairwise
      (fun a b =>
        firstIdx a (rawSearchLocations ["d"] "product") <
          firstIdx b (rawSearchLocations ["d"] "product"))) :=
  ⟨by decide, C6_generator_dedup_first_occurrence ["d"] "product" (by decide)⟩

/-- Claim C2: in the generic extended search for an identity not yet in the
table, when some (directory, file) pair matches, the probe sequence is
exactly all pairs up to and including the first matching pair in iteration
order (directories outermost) — nothing further is probed — and the
identity is recorded with the matching directory. -/
theorem C2_extended_search_short_circuit (bpl : List PPath)
    (fs : PPath → Bool) (R : PPath) (t : Table) (m : PartitionModel)
    (pr : PPath × PPath) (hm : tableHas t m = false)
    (hfind : (allPairs (allPropLocations bpl) (extCandidates R t m)).find?
      (fun q => fs (q.1 ++ q.2)) = some pr) :
    search_for_partition_extended bpl fs R t m =
      ((allPairs (allPropLocations bpl) (extCandidates R t m)).takeWhile
          (fun q => !fs (q.1 ++ q.2)) ++ [pr],
        t ++ [(m, ⟨m, pr.1⟩)]) := by
  rw [search_for_partition_extended]
  exact searchExtLoop_found fs m _ _ t pr hm hfind

/-- A filesystem for exercising the extended search: only
`d/product/build.prop` exists. -/
def fsProd (p : PPath) : Bool :=
  decide (p = ["d", "product", "build.prop"])

/-- The table state after the two mandatory searches on the `fsTwo`
filesystem. -/
def tableSV : Table :=
  [(PartitionModel.SYSTEM, ⟨PartitionModel.SYSTEM, ["d", "system"]⟩),
   (PartitionModel.VENDOR, ⟨PartitionModel.VENDOR, ["d", "vendor"]⟩)]

theorem C2_extended_search_short_circuit_witness :
    tableHas tableSV PartitionModel.PRODUCT = false ∧
    (allPairs (allPropLocations []) (extCandidates ["d"] tableSV
      PartitionModel.PRODUCT)).find? (fun q => fsProd (q.1 ++ q.2)) =
      some (["d", "product"], ["build.prop"]) ∧
    search_for_partition_extended [] fsProd ["d"] tableSV
      PartitionModel.PRODUCT =
      ((allPairs (allPropLocations []) (extCandidates ["d"] tableSV
          PartitionModel.PRODUCT)).takeWhile (fun q => !fsProd (q.1 ++ q.2))
        ++ [(["d", "product"], ["build.prop"])],
       tableSV ++ [(PartitionModel.PRODUCT,
         ⟨PartitionModel.PRODUCT, ["d", "product"]⟩)]) :=
  ⟨by decide, by decide,
   C2_extended_search_short_circuit [] fsProd ["d"] tableSV
     PartitionModel.PRODUCT (["d", "product"], ["build.prop"])
     (by decide) (by decide)⟩

/-- Claim C4 (as stated) is false: the extended search appends
`dump_path / name` after the deduplicated generated candidates, which
repeats an already-probed directory, so a (directory, file) pair can be
probed twice within one search.  Concretely, with no matching file at all,
the PRODUCT search probes `(d/product, build.prop)` twice. -/
theorem C4_counterexample :
    ¬ ((search_for_partition_extended [] (fun _ => false) ["d"] tableSV
        PartitionModel.PRODUCT).1).Nodup := by
  decide

/-- Claim C4 (amended): within a single mandatory (System-style) search,
whose directory list is the deduplicated generator output, no
(directory, file) pair is probed twice, provided the combined
property-file list itself is duplicate-free. -/
theorem C4_amended_system_search_no_repeat (bpl : List PPath)
    (fs : PPath → Bool) (R : PPath)
    (h : (allPropLocations bpl).Nodup) :
    ((searchLocsTrace fs (allPropLocations bpl)
      (get_extended_search_locations R "system")).1).Nodup :=
  searchLocsTrace_nodup fs (allPropLocations bpl) h
    (get_extended_search_locations R "system")
    (nodup_dedupFirst (rawSearchLocations R "system"))

theorem C4_amended_system_search_no_repeat_witness :
    (allPropLocations []).Nodup ∧
    ((searchLocsTrace fsTwo (allPropLocations [])
      (get_extended_search_locations ["d"] "system")).1).Nodup :=
  ⟨by decide, C4_amended_system_search_no_repeat [] fsTwo ["d"] (by decide)⟩

/-- Claim C3: if no candidate directory for System contains any property
file from the combined list, construction fails with the
mandatory-partition error carrying the full candidate list; likewise, if
System is found but no Vendor candidate (including the prepended
`<system>/vendor`) matches, construction fails with the Vendor error
carrying that full candidate list.  In both cases no table is produced. -/
theorem C3_mandatory_missing_fatal (bpl : List PPath) (fs : PPath → Bool)
    (R : PPath) :
    ((∀ loc ∈ get_extended_search_locations R "system",
        ∀ f ∈ allPropLocations bpl, fs (loc ++ f) = false) →
      Partitions.init bpl fs R =
        .error (.systemNotFound (get_extended_search_locations R "system"))) ∧
    (∀ sysLoc,
      (searchLocsTrace fs (allPropLocations bpl)
        (get_extended_search_locations R "system")).2 = some sysLoc →
      (∀ loc ∈ (sysLoc ++ ["vendor"]) :: get_extended_search_locations R "vendor",
        ∀ f ∈ allPropLocations bpl, fs (loc ++ f) = false) →
      Partitions.init bpl fs R =
        .error (.vendorNotFound
          ((sysLoc ++ ["vendor"]) :: get_extended_search_locations R "vendor"))) := by
  constructor
  · intro h
    have hs : (searchLocsTrace fs (allPropLocations bpl)
        (get_extended_search_locations R "system")).2 = none := by
      rw [searchLocsTrace_none fs (allPropLocations bpl)
        (get_extended_search_locations R "system") h]
    rw [Partitions.init, hs]
  · intro sysLoc hsys h
    have hv : (searchLocsTrace fs (allPropLocations bpl)
        ((sysLoc ++ ["vendor"]) :: get_extended_search_locations R "vendor")).2
        = none := by
      rw [searchLocsTrace_none fs (allPropLocations bpl) _ h]
    rw [Partitions.init, hsys]
    simp only []
    rw [hv]

/-- A filesystem containing only a System property file, so the Vendor
search exhausts. -/
def fsSysOnly (p : PPath) : Bool :=
  decide (p = ["d", "system", "build.prop"])

theorem C3_mandatory_missing_fatal_witness :
    ((∀ loc ∈ get_extended_search_locations ["d"] "system",
        ∀ f ∈ allPropLocations [], (fun _ => false) (loc ++ f) = false) ∧
      Partitions.init [] (fun _ => false) ["d"] =
        .error (.systemNotFound (get_extended_search_locations ["d"] "system"))) ∧
    ((searchLocsTrace fsSysOnly (allPropLocations [])
        (get_extended_search_locations ["d"] "system")).2 =
        some (["d", "system"]) ∧
      (∀ loc ∈ (["d", "system"] ++ ["vendor"]) ::
          get_extended_search_locations ["d"] "vendor",
        ∀ f ∈ allPropLocations [], fsSysOnly (loc ++ f) = false) ∧
      Partitions.init [] fsSysOnly ["d"] =
        .error (.vendorNotFound ((["d", "system"] ++ ["vendor"]) ::
          get_extended_search_locations ["d"] "vendor"))) :=
  ⟨⟨by decide,
    (C3_mandatory_missing_fatal [] (fun _ => false) ["d"]).1 (by decide)⟩,
   ⟨by decide, by decide,
    (C3_mandatory_missing_fatal [] fsSysOnly ["d"]).2 ["d", "system"]
      (by decide) (by decide)⟩⟩

/-- Claim C7: whenever construction succeeds, the table holds entries for
both SYSTEM and VENDOR, and `get_all_partitions` lists the System value
first and the Vendor value second (discovery-insertion order), so both are
always among its results. -/
theorem C7_mandatory_keys_always_present (bpl : List PPath)
    (fs : PPath → Bool) (R : PPath) (P : Partitions)
    (h : Partitions.init bpl fs R = .ok P) :
    tableHas P.partitions PartitionModel.SYSTEM = true ∧
    tableHas P.partitions PartitionModel.VENDOR = true ∧
    ∃ s v rest,
      tableGet P.partitions PartitionModel.SYSTEM = some s ∧
      tableGet P.partitions PartitionModel.VENDOR = some v ∧
      P.get_all_partitions = s :: v :: rest ∧
      s ∈ P.get_all_partitions ∧ v ∈ P.get_all_partitions := by
  rcases init_ok_elim bpl fs R P h with ⟨sysLoc, venLoc, ext, _, _, hP, _⟩
  subst hP
  refine ⟨?_, ?_, ⟨PartitionModel.SYSTEM, sysLoc⟩, ⟨PartitionModel.VENDOR, venLoc⟩,
    (List.map (fun e => e.2) ext), ?_, ?_, ?_, ?_, ?_⟩
  · rw [tableHas_append]
    simp [tableHas]
  · rw [tableHas_append]
    simp [tableHas]
  · exact tableGet_append_left _ ext PartitionModel.SYSTEM _ rfl
  · exact tableGet_append_left _ ext PartitionModel.VENDOR _ rfl
  · simp [Partitions.get_all_partitions]
  · simp [Partitions.get_all_partitions]
  · simp [Partitions.get_all_partitions]

theorem C7_mandatory_keys_always_present_witness :
    Partitions.init [] fsTwo ["d"] = .ok ⟨["d"], tableSV⟩ ∧
    (tableHas (Partitions.mk ["d"] tableSV).partitions
        PartitionModel.SYSTEM = true ∧
      tableHas (Partitions.mk ["d"] tableSV).partitions
        PartitionModel.VENDOR = true ∧
      ∃ s v rest,
        tableGet (Partitions.mk ["d"] tableSV).partitions
          PartitionModel.SYSTEM = some s ∧
        tableGet (Partitions.mk ["d"] tableSV).partitions
          PartitionModel.VENDOR = some v ∧
        (Partitions.mk ["d"] tableSV).get_all_partitions = s :: v :: rest ∧
        s ∈ (Partitions.mk ["d"] tableSV).get_all_partitions ∧
        v ∈ (Partitions.mk ["d"] tableSV).get_all_partitions) :=
  ⟨by rfl,
   C7_mandatory_keys_always_present [] fsTwo ["d"] ⟨["d"], tableSV⟩ (by rfl)⟩

/-! ### Disequalities between generated candidate paths -/

lemma ne_app_left {R a b : PPath} (hab : a ≠ b) : R ++ a ≠ R ++ b :=
  fun h => hab ((List.append_right_inj R).mp h)

lemma ne_root_parent (R : PPath) (s : String) (h : R.getLast? ≠ some s) :
    R ++ ["vendor"] ≠ R.dropLast ++ [s, "vendor"] := by
  intro he
  have h2 : R ++ ["vendor"] = (R.dropLast ++ [s]) ++ ["vendor"] := by
    rw [List.append_assoc]; exact he
  have h3 : R = R.dropLast ++ [s] := (List.append_left_inj ["vendor"]).mp h2
  exact h (by rw [h3]; exact List.getLast?_concat _)

lemma ne_by_parent_length {R a b : PPath} (ha : a.length = 3)
    (hb : b.length = 2) : R ++ a ≠ R.dropLast ++ b := by
  intro h
  have hl := congrArg List.length h
  simp only [List.length_append, List.length_dropLast, ha, hb] at hl
  omega

lemma vendor_six_nodup (R : PPath) (h1 : R.getLast? ≠ some "ramdisk")
    (h2 : R.getLast? ≠ some "vendor_ramdisk") :
    ([R ++ ["vendor"], R ++ ["boot", "ramdisk", "vendor"],
      R ++ ["recovery", "ramdisk", "vendor"],
      R ++ ["vendor_boot", "ramdisk", "vendor"],
      R.dropLast ++ ["ramdisk", "vendor"],
      R.dropLast ++ ["vendor_ramdisk", "vendor"]] : List PPath).Nodup := by
  have n01 : R ++ ["vendor"] ≠ R ++ ["boot", "ramdisk", "vendor"] :=
    ne_app_left (by decide)
  have n02 : R ++ ["vendor"] ≠ R ++ ["recovery", "ramdisk", "vendor"] :=
    ne_app_left (by decide)
  have n03 : R ++ ["vendor"] ≠ R ++ ["vendor_boot", "ramdisk", "vendor"] :=
    ne_app_left (by decide)
  have n04 : R ++ ["vendor"] ≠ R.dropLast ++ ["ramdisk", "vendor"] :=
    ne_root_parent R "ramdisk" h1
  have n05 : R ++ ["vendor"] ≠ R.dropLast ++ ["vendor_ramdisk", "vendor"] :=
    ne_root_parent R "vendor_ramdisk" h2
  have n12 : R ++ ["boot", "ramdisk", "vendor"] ≠
      R ++ ["recovery", "ramdisk", "vendor"] := ne_app_left (by decide)
  have n13 : R ++ ["boot", "ramdisk", "vendor"] ≠
      R ++ ["vendor_boot", "ramdisk", "vendor"] := ne_app_left (by decide)
  have n14 : R ++ ["boot", "ramdisk", "vendor"] ≠
      R.dropLast ++ ["ramdisk", "vendor"] :=
    ne_by_parent_length (by decide) (by decide)
  have n15 : R ++ ["boot", "ramdisk", "vendor"] ≠
      R.dropLast ++ ["vendor_ramdisk", "vendor"] :=
    ne_by_parent_length (by decide) (by decide)
  have n23 : R ++ ["recovery", "ramdisk", "vendor"] ≠
      R ++ ["vendor_boot", "ramdisk", "vendor"] := ne_app_left (by decide)
  have n24 : R ++ ["recovery", "ramdisk", "vendor"] ≠
      R.dropLast ++ ["ramdisk", "vendor"] :=
    ne_by_parent_length (by decide) (by decide)
  have n25 : R ++ ["recovery", "ramdisk", "vendor"] ≠
      R.dropLast ++ ["vendor_ramdisk", "vendor"] :=
    ne_by_parent_length (by decide) (by decide)
  have n34 : R ++ ["vendor_boot", "ramdisk", "vendor"] ≠
      R.dropLast ++ ["ramdisk", "vendor"] :=
    ne_by_parent_length (by decide) (by decide)
  have n35 : R ++ ["vendor_boot", "ramdisk", "vendor"] ≠
      R.dropLast ++ ["vendor_ramdisk", "vendor"] :=
    ne_by_parent_length (by decide) (by decide)
  have n45 : R.dropLast ++ ["ramdisk", "vendor"] ≠
      R.dropLast ++ ["vendor_ramdisk", "vendor"] := ne_app_left (by decide)
  simp [List.nodup_cons, n01, n02, n03, n04, n05, n12, n13, n14, n15, n23,
    n24, n25, n34, n35, n45]

/-- Claim C1 (as stated) is false: for the name "vendor" the generator
does not emit `root/vendor/vendor` (there is no analogue of the doubled
`root/system/system` entry), so the claimed 7-element identity-specific
list is not what the generator begins with. -/
theorem C1_counterexample :
    ¬ ((get_extended_search_locations ["d"] "vendor").take 7 =
      [["d", "vendor"], ["d", "vendor", "vendor"],
       ["d", "boot", "ramdisk", "vendor"],
       ["d", "recovery", "ramdisk", "vendor"],
       ["d", "vendor_boot", "ramdisk", "vendor"],
       ["ramdisk", "vendor"], ["vendor_ramdisk", "vendor"]]) := by
  decide

/-- Claim C1 (amended): for every root whose last component collides with
none of the parent-relative entries (it is neither "ramdisk" nor
"vendor_ramdisk"), the generator for "vendor" begins with the six
identity-specific locations `R/vendor`, `R/boot/ramdisk/vendor`,
`R/recovery/ramdisk/vendor`, `R/vendor_boot/ramdisk/vendor`,
`R-parent/ramdisk/vendor`, `R-parent/vendor_ramdisk/vendor`, in that
order (no `R/vendor/vendor` entry). -/
theorem C1_amended_vendor_identity_locations (R : PPath)
    (h1 : R.getLast? ≠ some "ramdisk")
    (h2 : R.getLast? ≠ some "vendor_ramdisk") :
    (get_extended_search_locations R "vendor").take 6 =
      [R ++ ["vendor"], R ++ ["boot", "ramdisk", "vendor"],
       R ++ ["recovery", "ramdisk", "vendor"],
       R ++ ["vendor_boot", "ramdisk", "vendor"],
       R.dropLast ++ ["ramdisk", "vendor"],
       R.dropLast ++ ["vendor_ramdisk", "vendor"]] := by
  have hraw : rawSearchLocations R "vendor" =
      [R ++ ["vendor"], R ++ ["boot", "ramdisk", "vendor"],
       R ++ ["recovery", "ramdisk", "vendor"],
       R ++ ["vendor_boot", "ramdisk", "vendor"],
       R.dropLast ++ ["ramdisk", "vendor"],
       R.dropLast ++ ["vendor_ramdisk", "vendor"]] ++
      [R ++ ["vendor"], R ++ ["boot", "ramdisk", "vendor"],
       R ++ ["recovery", "ramdisk", "vendor"],
       R ++ ["vendor_boot", "ramdisk", "vendor"],
       R.dropLast ++ ["vendor"], R.dropLast ++ ["ramdisk", "vendor"],
       R.dropLast ++ ["vendor_ramdisk", "vendor"],
       R.dropLast.dropLast ++ ["vendor"]] := rfl
  rw [get_extended_search_locations, hraw, dedupFirst_eq_scan,
    dedupScan_append_nodup _ _ [] (vendor_six_nodup R h1 h2)
      (by intro x _ hx; simp at hx)]
  have h6 : ([R ++ ["vendor"], R ++ ["boot", "ramdisk", "vendor"],
      R ++ ["recovery", "ramdisk", "vendor"],
      R ++ ["vendor_boot", "ramdisk", "vendor"],
      R.dropLast ++ ["ramdisk", "vendor"],
      R.dropLast ++ ["vendor_ramdisk", "vendor"]] : List PPath).length = 6 := rfl
  rw [← h6]
  exact take_length_append _ _

theorem C1_amended_vendor_identity_locations_witness :
    (["d"] : PPath).getLast? ≠ some "ramdisk" ∧
    (["d"] : PPath).getLast? ≠ some "vendor_ramdisk" ∧
    (get_extended_search_locations ["d"] "vendor").take 6 =
      [["d"] ++ ["vendor"], ["d"] ++ ["boot", "ramdisk", "vendor"],
       ["d"] ++ ["recovery", "ramdisk", "vendor"],
       ["d"] ++ ["vendor_boot", "ramdisk", "vendor"],
       (["d"] : PPath).dropLast ++ ["ramdisk", "vendor"],
       (["d"] : PPath).dropLast ++ ["vendor_ramdisk", "vendor"]] :=
  ⟨by decide, by decide,
   C1_amended_vendor_identity_locations ["d"] (by decide) (by decide)⟩

/-! ### Claim C5: the spec's worked example -/

lemma dedupFirst_cons {α : Type} [DecidableEq α] (x : α) (xs : List α) :
    dedupFirst (x :: xs) = x :: dedupScan [x] xs := by
  rw [dedupFirst_eq_scan, dedupScan]
  simp

/-- The filesystem of the example: exactly `R/vendor/build.prop` and
`R/system/system/build.prop` exist. -/
def fsC5 (R : PPath) (p : PPath) : Bool :=
  decide (p = R ++ ["vendor", "build.prop"]) ||
    decide (p = R ++ ["system", "system", "build.prop"])

lemma fsC5_sysvendor (R : PPath) (f : PPath) :
    fsC5 R (((R ++ ["system"]) ++ ["vendor"]) ++ f) = false := by
  have e1 : ¬(((R ++ ["system"]) ++ ["vendor"]) ++ f =
      R ++ ["vendor", "build.prop"]) := by
    intro h
    rw [List.append_assoc, List.append_assoc] at h
    have h2 := (List.append_right_inj R).mp h
    have h3 := congrArg List.head? h2
    simp at h3
  have e2 : ¬(((R ++ ["system"]) ++ ["vendor"]) ++ f =
      R ++ ["system", "system", "build.prop"]) := by
    intro h
    rw [List.append_assoc, List.append_assoc] at h
    have h2 := (List.append_right_inj R).mp h
    have h3 := congrArg (fun l => List.head? (List.tail l)) h2
    simp at h3
  simp [fsC5, e1, e2]

lemma c5_sys_found (bpl : List PPath) (R : PPath) :
    (searchLocsTrace (fsC5 R) (allPropLocations bpl)
      (get_extended_search_locations R "system")).2 = some (R ++ ["system"]) := by
  have hraw : rawSearchLocations R "system" = (R ++ ["system"]) ::
      [R ++ ["system", "system"], R ++ ["boot", "ramdisk", "system"],
       R ++ ["recovery", "ramdisk", "system"],
       R ++ ["vendor_boot", "ramdisk", "system"],
       R.dropLast ++ ["ramdisk", "system"],
       R.dropLast ++ ["vendor_ramdisk", "system"],
       R ++ ["system"], R ++ ["boot", "ramdisk", "system"],
       R ++ ["recovery", "ramdisk", "system"],
       R ++ ["vendor_boot", "ramdisk", "system"],
       R.dropLast ++ ["system"], R.dropLast ++ ["ramdisk", "system"],
       R.dropLast ++ ["vendor_ramdisk", "system"],
       R.dropLast.dropLast ++ ["system"]] := rfl
  rw [get_extended_search_locations, hraw, dedupFirst_cons]
  refine searchLocsTrace_found_head _ _ _ _ ?_
  rw [List.any_eq_true]
  refine ⟨["system", "build.prop"], ?_, ?_⟩
  · rw [allPropLocations]
    exact List.mem_append.mpr (Or.inr (by decide))
  · simp [fsC5, List.append_assoc]

lemma c5_ven_found (bpl : List PPath) (R : PPath) :
    (searchLocsTrace (fsC5 R) (allPropLocations bpl)
      (((R ++ ["system"]) ++ ["vendor"]) ::
        get_extended_search_locations R "vendor")).2 = some (R ++ ["vendor"]) := by
  have hskip : (allPropLocations bpl).any
      (fun f => fsC5 R (((R ++ ["system"]) ++ ["vendor"]) ++ f)) = false :=
    any_false_of _ _ (fun f _ => fsC5_sysvendor R f)
  rw [searchLocsTrace_skip_head _ _ _ _ hskip]
  have hraw : rawSearchLocations R "vendor" = (R ++ ["vendor"]) ::
      [R ++ ["boot", "ramdisk", "vendor"],
       R ++ ["recovery", "ramdisk", "vendor"],
       R ++ ["vendor_boot", "ramdisk", "vendor"],
       R.dropLast ++ ["ramdisk", "vendor"],
       R.dropLast ++ ["vendor_ramdisk", "vendor"],
       R ++ ["vendor"], R ++ ["boot", "ramdisk", "vendor"],
       R ++ ["recovery", "ramdisk", "vendor"],
       R ++ ["vendor_boot", "ramdisk", "vendor"],
       R.dropLast ++ ["vendor"], R.dropLast ++ ["ramdisk", "vendor"],
       R.dropLast ++ ["vendor_ramdisk", "vendor"],
       R.dropLast.dropLast ++ ["vendor"]] := rfl
  rw [get_extended_search_locations, hraw, dedupFirst_cons]
  refine searchLocsTrace_found_head _ _ _ _ ?_
  rw [List.any_eq_true]
  refine ⟨["build.prop"], ?_, ?_⟩
  · rw [allPropLocations]
    exact List.mem_append.mpr (Or.inr (by decide))
  · simp [fsC5, List.append_assoc]

/-- Claim C5 (as stated) is false at the concrete root `["d"]`: with
exactly `R/vendor/build.prop` and `R/system/system/build.prop` present,
System does not resolve to `R/system/system`.  The first candidate
`R/system` already matches through the extended relative property path
`system/build.prop`, so System resolves to `R/system`. -/
theorem C5_counterexample :
    ¬ (∃ P, Partitions.init [] (fsC5 ["d"]) ["d"] = .ok P ∧
      tableGet P.partitions PartitionModel.SYSTEM =
        some ⟨PartitionModel.SYSTEM, ["d", "system", "system"]⟩ ∧
      tableGet P.partitions PartitionModel.VENDOR =
        some ⟨PartitionModel.VENDOR, ["d", "vendor"]⟩) := by
  rintro ⟨P, hok, hs, hv⟩
  have hval : Partitions.init [] (fsC5 ["d"]) ["d"] =
      .ok ⟨["d"], tableSV⟩ := by rfl
  rw [hval] at hok
  rw [← Except.ok.inj hok] at hs
  exact absurd hs (by decide)

/-- Claim C5 (amended): in the example, for every root and every canonical
property-file list, construction succeeds with System resolved to
`R/system` (the outer directory, matched through the extended relative
property path `system/build.prop`) and Vendor resolved to `R/vendor`. -/
theorem C5_amended_example_resolution (bpl : List PPath) (R : PPath) :
    ∃ P, Partitions.init bpl (fsC5 R) R = .ok P ∧
      tableGet P.partitions PartitionModel.SYSTEM =
        some ⟨PartitionModel.SYSTEM, R ++ ["system"]⟩ ∧
      tableGet P.partitions PartitionModel.VENDOR =
        some ⟨PartitionModel.VENDOR, R ++ ["vendor"]⟩ := by
  have hsys := c5_sys_found bpl R
  have hven := c5_ven_found bpl R
  rcases foldl_search_append bpl (fsC5 R) R
      ((PartitionModel.from_group .SSI).filter
        (fun m => !(m == PartitionModel.SYSTEM)))
      [(PartitionModel.SYSTEM, ⟨PartitionModel.SYSTEM, R ++ ["system"]⟩),
       (PartitionModel.VENDOR, ⟨PartitionModel.VENDOR, R ++ ["vendor"]⟩)]
      with ⟨ea, hea, hka⟩
  rcases foldl_search_append bpl (fsC5 R) R
      ((PartitionModel.from_group .TREBLE).filter
        (fun m => !(m == PartitionModel.VENDOR)))
      ([(PartitionModel.SYSTEM, ⟨PartitionModel.SYSTEM, R ++ ["system"]⟩),
        (PartitionModel.VENDOR, ⟨PartitionModel.VENDOR, R ++ ["vendor"]⟩)] ++ ea)
      with ⟨eb, heb, hkb⟩
  refine ⟨⟨R,
    [(PartitionModel.SYSTEM, ⟨PartitionModel.SYSTEM, R ++ ["system"]⟩),
     (PartitionModel.VENDOR, ⟨PartitionModel.VENDOR, R ++ ["vendor"]⟩)] ++
      (ea ++ eb)⟩, ?_, ?_, ?_⟩
  · rw [Partitions.init, hsys]
    simp only []
    rw [hven]
    simp only [List.singleton_append]
    rw [hea, heb, List.append_assoc]
  · exact tableGet_append_left _ _ _ _ rfl
  · exact tableGet_append_left _ _ _ _ rfl

/-! ### Claim C8: optional identities fail softly -/

lemma sfe_append (bpl : List PPath) (fs : PPath → Bool) (R : PPath)
    (t : Table) (m : PartitionModel) :
    ∃ ext, (search_for_partition_extended bpl fs R t m).2 = t ++ ext ∧
      ∀ e ∈ ext, e.1 = m := by
  rw [search_for_partition_extended]
  exact searchExtLoop_append fs m _ _ t

lemma sfe_nomatch (bpl : List PPath) (fs : PPath → Bool) (R : PPath)
    (t : Table) (m : PartitionModel)
    (h : ∀ loc ∈ extCandidates R t m,
      ∀ f ∈ allPropLocations bpl, fs (loc ++ f) = false) :
    (search_for_partition_extended bpl fs R t m).2 = t := by
  rw [search_for_partition_extended]
  exact searchExtLoop_nomatch fs m _ _ t h

lemma init_ok_shape (bpl : List PPath) (fs : PPath → Bool) (R : PPath)
    (P : Partitions) (h : Partitions.init bpl fs R = .ok P) :
    ∃ sysLoc venLoc,
      P = ⟨R,
        (search_for_partition_extended bpl fs R
          ((search_for_partition_extended bpl fs R
            ((search_for_partition_extended bpl fs R
              [(PartitionModel.SYSTEM, ⟨PartitionModel.SYSTEM, sysLoc⟩),
               (PartitionModel.VENDOR, ⟨PartitionModel.VENDOR, venLoc⟩)]
              PartitionModel.SYSTEM_EXT).2)
            PartitionModel.PRODUCT).2)
          PartitionModel.ODM).2⟩ := by
  rw [Partitions.init] at h
  rcases hsys : (searchLocsTrace fs (allPropLocations bpl)
      (get_extended_search_locations R "system")).2 with _ | sysLoc
  · rw [hsys] at h; exact absurd h (by simp)
  · rw [hsys] at h
    simp only [] at h
    rcases hven : (searchLocsTrace fs (allPropLocations bpl)
        ((sysLoc ++ ["vendor"]) :: get_extended_search_locations R "vendor")).2
        with _ | venLoc
    · rw [hven] at h; exact absurd h (by simp)
    · rw [hven] at h
      simp only [List.singleton_append, ssi_filtered, treble_filtered,
        List.foldl_cons, List.foldl_nil] at h
      exact ⟨sysLoc, venLoc, (Except.ok.inj h).symm⟩

/-- Claim C8: when construction succeeds but no candidate directory for
the non-mandatory PRODUCT identity contains any property file, PRODUCT is
simply absent from the table and `get_partition` returns an absent result;
no error propagates (construction still returned a table). -/
theorem C8_optional_absent_soft (bpl : List PPath) (fs : PPath → Bool)
    (R : PPath) (P : Partitions)
    (hok : Partitions.init bpl fs R = .ok P)
    (hnone : ∀ loc ∈ extCandidates R P.partitions PartitionModel.PRODUCT,
      ∀ f ∈ allPropLocations bpl, fs (loc ++ f) = false) :
    tableGet P.partitions PartitionModel.PRODUCT = none ∧
    P.get_partition (some PartitionModel.PRODUCT) = none := by
  rcases init_ok_shape bpl fs R P hok with ⟨sysLoc, venLoc, hP⟩
  obtain ⟨e1, he1, hk1⟩ := sfe_append bpl fs R
    [(PartitionModel.SYSTEM, ⟨PartitionModel.SYSTEM, sysLoc⟩),
     (PartitionModel.VENDOR, ⟨PartitionModel.VENDOR, venLoc⟩)]
    PartitionModel.SYSTEM_EXT
  rw [he1] at hP
  obtain ⟨e2, he2, hk2⟩ := sfe_append bpl fs R
    ([(PartitionModel.SYSTEM, ⟨PartitionModel.SYSTEM, sysLoc⟩),
      (PartitionModel.VENDOR, ⟨PartitionModel.VENDOR, venLoc⟩)] ++ e1)
    PartitionModel.PRODUCT
  obtain ⟨e3, he3, hk3⟩ := sfe_append bpl fs R
    ((search_for_partition_extended bpl fs R
      ([(PartitionModel.SYSTEM, ⟨PartitionModel.SYSTEM, sysLoc⟩),
        (PartitionModel.VENDOR, ⟨PartitionModel.VENDOR, venLoc⟩)] ++ e1)
      PartitionModel.PRODUCT).2)
    PartitionModel.ODM
  rw [he3, he2] at hP
  have hAS : tableGet
      ([(PartitionModel.SYSTEM, ⟨PartitionModel.SYSTEM, sysLoc⟩),
        (PartitionModel.VENDOR, ⟨PartitionModel.VENDOR, venLoc⟩)] ++ e1)
      PartitionModel.SYSTEM =
      some ⟨PartitionModel.SYSTEM, sysLoc⟩ :=
    tableGet_append_left _ _ _ _ rfl
  have hAV : tableGet
      ([(PartitionModel.SYSTEM, ⟨PartitionModel.SYSTEM, sysLoc⟩),
        (PartitionModel.VENDOR, ⟨PartitionModel.VENDOR, venLoc⟩)] ++ e1)
      PartitionModel.VENDOR =
      some ⟨PartitionModel.VENDOR, venLoc⟩ :=
    tableGet_append_left _ _ _ _ rfl
  have hPS : tableGet P.partitions PartitionModel.SYSTEM =
      some ⟨PartitionModel.SYSTEM, sysLoc⟩ := by
    rw [hP]
    exact tableGet_append_left _ _ _ _ (tableGet_append_left _ _ _ _ hAS)
  have hPV : tableGet P.partitions PartitionModel.VENDOR =
      some ⟨PartitionModel.VENDOR, venLoc⟩ := by
    rw [hP]
    exact tableGet_append_left _ _ _ _ (tableGet_append_left _ _ _ _ hAV)
  have hcand : extCandidates R P.partitions PartitionModel.PRODUCT =
      extCandidates R
        ([(PartitionModel.SYSTEM, ⟨PartitionModel.SYSTEM, sysLoc⟩),
          (PartitionModel.VENDOR, ⟨PartitionModel.VENDOR, venLoc⟩)] ++ e1)
        PartitionModel.PRODUCT := by
    rw [extCandidates, extCandidates]
    simp only [tableGetD]
    rw [hPS, hPV, hAS, hAV]
  have hnone2 : ∀ loc ∈ extCandidates R
      ([(PartitionModel.SYSTEM, ⟨PartitionModel.SYSTEM, sysLoc⟩),
        (PartitionModel.VENDOR, ⟨PartitionModel.VENDOR, venLoc⟩)] ++ e1)
      PartitionModel.PRODUCT,
      ∀ f ∈ allPropLocations bpl, fs (loc ++ f) = false := by
    rw [← hcand]; exact hnone
  have hprod := sfe_nomatch bpl fs R
    ([(PartitionModel.SYSTEM, ⟨PartitionModel.SYSTEM, sysLoc⟩),
      (PartitionModel.VENDOR, ⟨PartitionModel.VENDOR, venLoc⟩)] ++ e1)
    PartitionModel.PRODUCT hnone2
  have he2nil : e2 = [] := by
    have h0 := he2.symm.trans hprod
    have h1 := h0.trans (List.append_nil _).symm
    exact (List.append_right_inj _).mp h1
  subst he2nil
  have hbase : tableGet
      ([(PartitionModel.SYSTEM, ⟨PartitionModel.SYSTEM, sysLoc⟩),
        (PartitionModel.VENDOR, ⟨PartitionModel.VENDOR, venLoc⟩)] : Table)
      PartitionModel.PRODUCT = none := rfl
  have hstep1 : tableGet
      ([(PartitionModel.SYSTEM, ⟨PartitionModel.SYSTEM, sysLoc⟩),
        (PartitionModel.VENDOR, ⟨PartitionModel.VENDOR, venLoc⟩)] ++ e1)
      PartitionModel.PRODUCT = none :=
    tableGet_append_of_keys _ _ _ hbase
      (fun x hx => by rw [hk1 x hx]; decide)
  have hstep2 : tableGet
      (([(PartitionModel.SYSTEM, ⟨PartitionModel.SYSTEM, sysLoc⟩),
         (PartitionModel.VENDOR, ⟨PartitionModel.VENDOR, venLoc⟩)] ++ e1)
        ++ ([] : Table)) PartitionModel.PRODUCT = none := by
    rw [List.append_nil]; exact hstep1
  have hfin : tableGet P.partitions PartitionModel.PRODUCT = none := by
    rw [hP]
    exact tableGet_append_of_keys _ _ _ hstep2
      (fun x hx => by rw [hk3 x hx]; decide)
  exact ⟨hfin, hfin⟩

theorem C8_optional_absent_soft_witness :
    Partitions.init [] fsTwo ["d"] = .ok ⟨["d"], tableSV⟩ ∧
    (∀ loc ∈ extCandidates ["d"] (Partitions.mk ["d"] tableSV).partitions
        PartitionModel.PRODUCT,
      ∀ f ∈ allPropLocations [], fsTwo (loc ++ f) = false) ∧
    (tableGet (Partitions.mk ["d"] tableSV).partitions
        PartitionModel.PRODUCT = none ∧
      (Partitions.mk ["d"] tableSV).get_partition
        (some PartitionModel.PRODUCT) = none) :=
  ⟨by rfl, by decide,
   C8_optional_absent_soft [] fsTwo ["d"] ⟨["d"], tableSV⟩ (by rfl) (by decide)⟩
